import Mathlib

/-!
# EmuDrop — verification of the download/extract/convert/scrape pipeline

Shallow embedding of the core pipeline of the EmuDrop repository:

* `src/utils/download_manager.py` — `DownloadManager` (archive dispatch,
  streaming download worker, cancellation, cleanup);
* `src/utils/games_extractor_converter.py` — `GamesExtractorConverter`
  (`scan_folder`, `_trim_file_name`);
* `src/utils/screenscrapper.py` — `ScreenScraper.scrape_rom`;
* `src/app.py` — `App._show_download_confirmation`, `App._start_download`;
* `src/utils/config.py` — configuration constants.

File names are modelled as `List Char`; filesystem contents, network
responses and subprocess results are passed in explicitly so that every
definition is executable.  The machine floats of the source are modelled as
`ℚ` (the quantities involved — byte counts and percentages — are exact).
-/

namespace EmuDrop

/-- Value of `Config.MAX_CONCURRENT_DOWNLOADS` (src/utils/config.py, line 198). -/
def MAX_CONCURRENT_DOWNLOADS : Nat := 4

/-! ## Name classification and extractor dispatch -/

/-- Holds when `pat` is a prefix of `s` (character lists). -/
def startsWithL : List Char → List Char → Bool
  | [], _ => true
  | _ :: _, [] => false
  | a :: as, b :: bs => a == b && startsWithL as bs

/-- Holds when `pat` occurs as a contiguous substring of `s` —
the meaning of Python's `pat in s` on strings. -/
def hasSub (pat : List Char) : List Char → Bool
  | [] => startsWithL pat []
  | c :: rest => startsWithL pat (c :: rest) || hasSub pat rest

/-- Lower-casing of a name, modelling Python `str.lower` on ASCII names. -/
def lowerL (s : List Char) : List Char := s.map Char.toLower

/-- The literal `".zip"`. -/
def zipExt : List Char := ".zip".toList

/-- The literal `".rar"`. -/
def rarExt : List Char := ".rar".toList

/-- The literal `".7z"`. -/
def sevenZExt : List Char := ".7z".toList

/-- Archive-name test used by `GamesExtractorConverter.scan_folder`
(src/utils/games_extractor_converter.py, line 227) and by
`DownloadManager.move_and_extract_game` (src/utils/download_manager.py,
line 159): `any(ext in file.lower() for ext in ['.zip', '.rar', '.7z'])` —
a *substring* test on the lower-cased name, not a final-extension test. -/
def isArchiveName (nm : List Char) : Bool :=
  hasSub zipExt (lowerL nm) || hasSub rarExt (lowerL nm) ||
    hasSub sevenZExt (lowerL nm)

/-- Holds when `s` ends with `ext`; the meaning of Python's
case-sensitive `str.endswith`. -/
def endsWithL (ext s : List Char) : Bool := List.isSuffixOf ext s

/-- Which branch `DownloadManager.extractor` takes
(src/utils/download_manager.py, lines 80–111). -/
inductive ExtractDispatch where
  | zipRoutine
  | sevenZRoutine
  | rarRoutine
  | unsupported
  | notFound
  deriving DecidableEq

/-- Dispatch of `DownloadManager.extractor` (src/utils/download_manager.py,
lines 91–104): after the existence check, the branch is chosen by
`file.endswith(".zip")` / `file.endswith(".7z")` / `file.endswith(".rar")`
— case-sensitive `endswith` — and any other name raises
`ValueError("Unsupported archive format: ...")`. -/
def extractorDispatch (fileExists : Bool) (file : List Char) : ExtractDispatch :=
  if !fileExists then .notFound
  else if endsWithL zipExt file then .zipRoutine
  else if endsWithL sevenZExt file then .sevenZRoutine
  else if endsWithL rarExt file then .rarRoutine
  else .unsupported

/-! ## Filesystem model and `GamesExtractorConverter.scan_folder`

A directory is an ordered list of entries (the order of `os.listdir`).  A
file carries the entry list that extracting it with `7z` would produce
(its `payload`); for non-archive files the payload is never consulted. -/

/-- A filesystem entry: a file (with the contents its extraction would
yield) or a subdirectory. -/
inductive FsEntry where
  | file (nm : List Char) (payload : List FsEntry)
  | dir (nm : List Char) (entries : List FsEntry)

/-- The name of an entry, as returned by `os.listdir`. -/
def FsEntry.name : FsEntry → List Char
  | .file nm _ => nm
  | .dir nm _ => nm

/-- The nested-folder step shared by `scan_folder`
(src/utils/games_extractor_converter.py, lines 221–224) and
`move_and_extract_game` (src/utils/download_manager.py, lines 151–155):
`files = os.listdir(subfolder); if files and os.path.isdir(os.path.join(
subfolder, files[0])): subfolder = os.path.join(subfolder, files[0])` —
it descends exactly when the *first* listed entry is a directory.
Returns (whether it descended, the directory scanned afterwards). -/
def nestedDescendStep (entries : List FsEntry) : Bool × List FsEntry :=
  match entries with
  | FsEntry.dir _ es :: _ => (true, es)
  | _ => (false, entries)

/-- Return value of `scan_folder`: the directory finally inspected, the
file-name list returned, and the log of archive names passed to
`self.extractor` (in invocation order). -/
structure ScanOut where
  dirEntries : List FsEntry
  names : List (List Char)
  extracted : List (List Char)

/-- Result of a `scan_folder` call. `extractFail` models the
`RuntimeError` raised when the `7z` invocation fails (for instance when
the archive-named entry is a directory); `outOfFuel` is the embedding's
recursion bound — the source recursion has no depth guard, which the
repository's own spec flags as a latent risk. -/
inductive ScanResult where
  | ok (out : ScanOut)
  | extractFail (nm : List Char)
  | outOfFuel

/-- Model of `GamesExtractorConverter.scan_folder`
(src/utils/games_extractor_converter.py, lines 220–238):

1. descend one level when the first entry is a directory;
2. `archive_files = [f for f in os.listdir(subfolder) if any(ext in
   f.lower() for ext in ['.zip', '.rar', '.7z'])]`;
3. if archives exist and `self.isExtractable` is false, return
   `(subfolder, archive_files)`;
4. if archives exist and `self.isExtractable` is true, extract
   `archive_files[0]` into a fresh `tmp` subfolder (which then holds
   exactly the archive's payload; the archive itself is deleted by
   `extractor`) and recurse on `tmp`;
5. otherwise return `(subfolder, os.listdir(subfolder))`. -/
def scanFolder : Nat → Bool → List FsEntry → ScanResult
  | 0, _, _ => .outOfFuel
  | fuel + 1, isExtractable, entries =>
    let entries2 := (nestedDescendStep entries).2
    let archives := entries2.filter (fun e => isArchiveName e.name)
    match archives with
    | [] => .ok ⟨entries2, entries2.map FsEntry.name, []⟩
    | a :: _ =>
      if isExtractable then
        match a with
        | .dir nm _ => .extractFail nm
        | .file nm payload =>
          match scanFolder fuel isExtractable payload with
          | .ok r => .ok ⟨r.dirEntries, r.names, nm :: r.extracted⟩
          | err => err
      else .ok ⟨entries2, archives.map FsEntry.name, []⟩

/-! ## `GamesExtractorConverter._trim_file_name`

`re.sub(r'(\.[a-zA-Z0-9]+)+$', '', input_file)`
(src/utils/games_extractor_converter.py, lines 92–95).

The regex language `(\.[a-zA-Z0-9]+)+` anchored at the end of the string
is recognised by a three-state automaton; `re.sub` removes the match
starting at the leftmost position from which the rest of the string is in
that language (`$` is modelled as end-of-string; the file names involved
contain no newline). -/

/-- Character class `[a-zA-Z0-9]`. -/
def isAsciiAlnum (c : Char) : Bool :=
  ('a' ≤ c && c ≤ 'z') || ('A' ≤ c && c ≤ 'Z') || ('0' ≤ c && c ≤ '9')

/-- States of the automaton for `(\.[a-zA-Z0-9]+)+`:
expecting a dot, expecting the first alphanumeric of a group, inside an
alphanumeric run (the accepting state), or failed. -/
inductive RegexSt where
  | begun
  | afterDot
  | inRun
  | dead
  deriving DecidableEq

/-- Transition of the automaton. -/
def regexStep : RegexSt → Char → RegexSt
  | .begun, c => if c = '.' then .afterDot else .dead
  | .afterDot, c => if isAsciiAlnum c then .inRun else .dead
  | .inRun, c =>
    if isAsciiAlnum c then .inRun else if c = '.' then .afterDot else .dead
  | .dead, _ => .dead

/-- Run the automaton over a character list. -/
def regexRun (st : RegexSt) (cs : List Char) : RegexSt := cs.foldl regexStep st

/-- Holds when `cs` matches `(\.[a-zA-Z0-9]+)+` in full. -/
def isExtSuffix (cs : List Char) : Bool := regexRun .begun cs == .inRun

/-- Model of `GamesExtractorConverter._trim_file_name`: remove the suffix starting
at the leftmost position whose remainder matches `(\.[a-zA-Z0-9]+)+$`. -/
def trimFileName : List Char → List Char
  | [] => []
  | c :: cs => if isExtSuffix (c :: cs) then [] else c :: trimFileName cs

/-! ## `DownloadManager` — streaming worker, cancellation, cleanup

`start_download` / `_download_worker` / `cancel`
(src/utils/download_manager.py, lines 190–290).  A run of the worker is
determined by the environment: whether the HTTP GET succeeds, the
`content-length` header, the chunk sizes served by `iter_content`, at
which chunk-fetch the stream raises, and from which loop iteration the
cancel event is observed set. -/

/-- Environment of one `_download_worker` run. -/
structure DlEnv where
  httpOk : Bool
  contentLength : Nat
  chunks : List Nat
  failAt : Option Nat
  cancelAt : Option Nat

/-- Which terminal branch the worker took: the completion branch
(line 266, event not set), the cancellation break (lines 248–250 or the
skipped completion branch), or the `except` handler (lines 273–275). -/
inductive DlOutcome where
  | completed
  | cancelled
  | errored
  deriving DecidableEq

/-- How the chunk loop ended. -/
inductive LoopExit where
  | finished
  | broke
  | raised
  deriving DecidableEq

/-- Value of `self.download_progress = (downloaded / self.total_size * 100) if
self.total_size > 0 else 0` (line 259). -/
def progressOf (total bytes : Nat) : ℚ :=
  if 0 < total then (bytes : ℚ) / (total : ℚ) * 100 else 0

/-- The cancel event is observed set at loop iteration `i`. -/
def cancelSeen (cancelAt : Option Nat) (i : Nat) : Bool :=
  match cancelAt with
  | some c => c ≤ i
  | none => false

/-- Outcome of the chunk loop: bytes written to the temp file, the
successive values assigned to `download_progress` inside the loop, and
how the loop ended. -/
structure LoopOut where
  bytes : Nat
  writes : List ℚ
  exit : LoopExit

/-- The `for chunk in response.iter_content(chunk_size=8192)` loop
(lines 246–263): fetching the next chunk may raise; then the cancel flag
is checked (`break`); an empty chunk is skipped (`if chunk:`); otherwise
the chunk is appended to the temp file and `current_size` and
`download_progress` are updated. -/
def dlLoop (total : Nat) (failAt cancelAt : Option Nat) :
    List Nat → Nat → Nat → LoopOut
  | [], _, bytes => ⟨bytes, [], .finished⟩
  | c :: cs, i, bytes =>
    if failAt = some i then ⟨bytes, [], .raised⟩
    else if cancelSeen cancelAt i then ⟨bytes, [], .broke⟩
    else if 0 < c then
      let out := dlLoop total failAt cancelAt cs (i + 1) (bytes + c)
      ⟨out.bytes, progressOf total (bytes + c) :: out.writes, out.exit⟩
    else dlLoop total failAt cancelAt cs (i + 1) bytes

/-- Observable state when the worker thread ends: the temp file at
`download_path` (`none` = absent, `some b` = present holding `b` bytes),
the renamed file in the per-game holding folder, the final
`download_progress`, `current_size`, `total_size`, which branch ended the
run, and the trace of every value assigned to `download_progress`. -/
structure DlState where
  tempBytes : Option Nat
  holdingBytes : Option Nat
  progress : ℚ
  currentSize : Nat
  totalSize : Nat
  outcome : DlOutcome
  trace : List ℚ

/-- Reset value `self.download_progress = 0` in `start_download` (line 209). -/
def startProgress : ℚ := 0

/-- Whether the completion check `if not self.cancel_download.is_set()`
(line 266) sees the event set after a loop that consumed all chunks. -/
def cancelSeenAtEnd (e : DlEnv) : Bool :=
  match e.cancelAt with
  | some c => c ≤ e.chunks.length
  | none => false

/-- The last value assigned to `download_progress`, `startProgress` when
the loop assigned none. -/
def lastOr (tr : List ℚ) : ℚ := tr.getLast?.getD startProgress

/-- Model of `_download_worker` (lines 228–277).  If the GET or
`raise_for_status` fails, the `except` handler sets
`download_progress = -1` before any file is opened.  Otherwise the temp
file is created, the chunk loop runs, and:
* on an exception mid-stream the handler sets `progress = -1` and the
  partial temp file is left on disk;
* on a cancellation break the completion branch is skipped and the
  partial temp file is left for `cancel()` to remove;
* otherwise `progress = 100` and the temp file is renamed into the
  per-game holding folder (line 270).  (`move_and_extract_game`, which
  runs afterwards, catches all its own exceptions and is outside this
  model.) -/
def runWorker (e : DlEnv) : DlState :=
  if !e.httpOk then
    ⟨none, none, -1, 0, 0, .errored, [-1]⟩
  else
    let total := e.contentLength
    let r := dlLoop total e.failAt e.cancelAt e.chunks 0 0
    match r.exit with
    | .raised =>
      ⟨some r.bytes, none, -1, r.bytes, total, .errored, r.writes ++ [-1]⟩
    | .broke =>
      ⟨some r.bytes, none, lastOr r.writes, r.bytes, total, .cancelled, r.writes⟩
    | .finished =>
      if cancelSeenAtEnd e then
        ⟨some r.bytes, none, lastOr r.writes, r.bytes, total, .cancelled, r.writes⟩
      else
        ⟨none, some r.bytes, 100, r.bytes, total, .completed, r.writes ++ [100]⟩

/-- Model of `DownloadManager.cancel` (lines 279–290), called while the download
is in flight: sets the cancel event, joins the worker thread, then
removes the file at `download_path` if it exists. -/
def cancelRun (e : DlEnv) : DlState :=
  let st := runWorker e
  { st with tempBytes := none }

/-! ## `ScreenScraper.scrape_rom`

(src/utils/screenscrapper.py, lines 208–244.)  The remote interactions
are supplied as outcomes: each `Except Unit _` value is either the value
the source expression produced or the exception it raised. -/

/-- Environment of one `scrape_rom` call. -/
structure ScrapeEnv where
  /-- Result of `os.path.exists(target_image)`. -/
  targetExists : Bool
  /-- Outcome of `_scrape_using_file_hash`: raises, or returns an optional media URL
  (`None` both when the response is not ok and when no media matches). -/
  hashLookup : Except Unit (Option (List Char))
  /-- Outcome of `_scrape_using_file_name`, likewise. -/
  nameLookup : Except Unit (Option (List Char))
  /-- Outcome of `self.session.get(media_url)`: raises, or returns with an ok flag. -/
  mediaFetch : Except Unit Bool
  /-- writing the fetched image to `target_image` succeeds. -/
  writeOk : Bool
  /-- Result of `ImageCache.download_image(image_url)`: never raises (every handler
  inside it returns or breaks to the default-image fallback,
  src/utils/image_cache.py lines 60–121); `none` models its `None`. -/
  cacheResult : Option (List Char)
  /-- Holds when `shutil.copy(image_path, target_image)` succeeds. -/
  copyOk : Bool

/-- Holds on `Except.error`. -/
def exceptFails : Except Unit (List Char) → Bool
  | .error _ => true
  | .ok _ => false

/-- Message "Already scraped". -/
def msgAlreadyScraped : List Char := "Already scraped".toList

/-- Message "Successfully scraped from scrapper". -/
def msgFromScrapper : List Char := "Successfully scraped from scrapper".toList

/-- Message "Successfully scraped from cache". -/
def msgFromCache : List Char := "Successfully scraped from cache".toList

/-- The `try` block of `scrape_rom` (lines 218–238): hash lookup; if it
yields no URL, name lookup; if still no URL, a bare `raise`; fetch the
media URL, `raise` unless `image_response.ok`; write the image. -/
def scrapeAttempt (env : ScrapeEnv) : Except Unit (List Char) :=
  match env.hashLookup with
  | .error e => .error e
  | .ok mediaUrl =>
    match (match mediaUrl with
           | some u => Except.ok (some u)
           | none => env.nameLookup) with
    | .error e => .error e
    | .ok mediaUrl2 =>
      match mediaUrl2 with
      | none => .error ()
      | some _ =>
        match env.mediaFetch with
        | .error e => .error e
        | .ok respOk =>
          if !respOk then .error ()
          else if env.writeOk then .ok msgFromScrapper
          else .error ()

/-- Model of `ScreenScraper.scrape_rom` (lines 208–244): short-circuit when the
target image already exists; otherwise run the `try` block; on any
exception fall back to `ImageCache.download_image` and
`shutil.copy(image_path, target_image)` — which raises (`TypeError`)
when `download_image` returned `None`, and whose own failure
propagates. -/
def scrape_rom (env : ScrapeEnv) : Except Unit (List Char) :=
  if env.targetExists then .ok msgAlreadyScraped
  else
    match scrapeAttempt env with
    | .ok m => .ok m
    | .error _ =>
      match env.cacheResult with
      | none => .error ()
      | some _ =>
        if env.copyOk then .ok msgFromCache
        else .error ()

/-! ## `App` — submission, duplicate rejection, tracked downloads

`_show_download_confirmation` (src/app.py, lines 858–899) and
`_start_download` (src/app.py, lines 901–943).  The UI vocabulary for a
tracked job's status is the one `_update_downloads` (lines 334–372) and
`download_view` use; `queued` exists in that vocabulary but no code path
assigns it. -/

/-- Status strings stored in `active_downloads` entries. -/
inductive DlStatus where
  | downloading
  | extracting
  | scrapping
  | complete
  | error
  | cancelled
  | queued
  deriving DecidableEq

/-- The per-job record `{'status': ..., 'progress': ..., 'speed': ...,
'eta': ...}` stored in `App.active_downloads` (manager omitted). -/
structure JobInfo where
  status : DlStatus
  progress : ℚ
  speed : ℚ
  eta : ℚ
  deriving DecidableEq

instance : Inhabited JobInfo := ⟨⟨.downloading, 0, 0, 0⟩⟩

/-- The fields of a catalog game record the submission path reads. -/
structure Game where
  name : List Char
  game_url : List Char
  size : Nat
  deriving DecidableEq

/-- The slice of `App` state touched by submission. -/
structure AppSt where
  active_downloads : List (List Char × JobInfo)
  alerts : Nat
  game_to_download : Option Game
  showing_confirmation : Bool
  confirmation_selected : Bool
  deriving DecidableEq

/-- The `App` state with no tracked downloads. -/
def emptyAppSt : AppSt := ⟨[], 0, none, false, false⟩

/-- Python `dict` assignment `d[k] = v` on an association list. -/
def dictInsert (l : List (List Char × JobInfo)) (k : List Char) (v : JobInfo) :
    List (List Char × JobInfo) :=
  match l with
  | [] => [(k, v)]
  | (k', v') :: rest =>
    if k' == k then (k, v) :: rest else (k', v') :: dictInsert rest k v

/-- Model of `App._show_download_confirmation` (src/app.py, lines 858–899): if the
game's name is already a key of `active_downloads`, call `show_alert`
("is already downloading!") and return; otherwise pre-fetch the size and
arm the confirmation dialog. -/
def showDownloadConfirmation (prefetchedSize : Nat) (st : AppSt) (game : Game) :
    AppSt :=
  if st.active_downloads.any (fun p => p.1 == game.name) then
    { st with alerts := st.alerts + 1 }
  else
    { st with
        game_to_download := some { game with size := prefetchedSize },
        showing_confirmation := true,
        confirmation_selected := false }

/-- Message "Download initialization failed". -/
def msgInitFailed : List Char := "Download initialization failed".toList

/-- Model of `App._start_download` (src/app.py, lines 901–943): when the game has
a non-empty `game_url`, create a `DownloadManager`, start it, and track
the job as `{'status': 'downloading', 'progress': 0, 'speed': 0,
'eta': 0}`; otherwise raise `RuntimeError`.  No concurrency check of any
kind is made. -/
def startDownload (st : AppSt) (game : Game) : Except (List Char) AppSt :=
  if game.game_url.isEmpty then
    .error msgInitFailed
  else
    .ok { st with
            active_downloads :=
              dictInsert st.active_downloads game.name ⟨.downloading, 0, 0, 0⟩ }

/-- Iterated submission harness: start each game's download in turn (a
raised `RuntimeError` leaves the state unchanged and submission
continues with the next game). -/
def submitAll (st : AppSt) (gs : List Game) : AppSt :=
  gs.foldl
    (fun st g =>
      match startDownload st g with
      | .ok s => s
      | .error _ => st)
    st

/-- A status counted as active: non-queued, non-terminal. -/
def isActiveStatus : DlStatus → Bool
  | .downloading | .extracting | .scrapping => true
  | _ => false

/-- Number of tracked jobs in an active state. -/
def countActive (st : AppSt) : Nat :=
  (st.active_downloads.filter (fun p => isActiveStatus p.2.status)).length

/-- Number of tracked jobs in the `queued` state. -/
def countQueued (st : AppSt) : Nat :=
  (st.active_downloads.filter (fun p => p.2.status == DlStatus.queued)).length


/-! ## Concrete fixtures used by counterexamples and witnesses -/

/-- Name "game.ZIP" (upper-case archive extension). -/
def nmUpperZip : List Char := "game.ZIP".toList

/-- Name "game.zip.sav" (archive substring, non-archive final extension). -/
def nmZipSav : List Char := "game.zip.sav".toList

/-- Name "game_zip.sav" (no dotted archive substring). -/
def nmUnderscoreZip : List Char := "game_zip.sav".toList

/-- Name "GAME.ZIP" (entirely upper-case). -/
def nmAllCapsZip : List Char := "GAME.ZIP".toList

/-- Name "tetris.gba". -/
def nmTetrisGba : List Char := "tetris.gba".toList

/-- Name "wrap". -/
def nmWrap : List Char := "wrap".toList

/-- Name "inner.gba". -/
def nmInnerGba : List Char := "inner.gba".toList

/-- Name "readme.txt". -/
def nmReadme : List Char := "readme.txt".toList

/-- A directory with two entries whose first entry is a subdirectory. -/
def cexNestedDir : List FsEntry :=
  [FsEntry.dir nmWrap [FsEntry.file nmInnerGba []], FsEntry.file nmReadme []]

/-- Job record used by the C4 witness. -/
def wJobInfo : JobInfo := ⟨.downloading, 50, 0, 0⟩

/-- Name "Tetris". -/
def nmTetris : List Char := "Tetris".toList

/-- URL fixture. -/
def wUrl : List Char := "http://example/rom.zip".toList

/-- App state already tracking a download for "Tetris". -/
def wTrackedSt : AppSt := ⟨[(nmTetris, wJobInfo)], 0, none, false, false⟩

/-- Game fixture named "Tetris". -/
def wGameTetris : Game := ⟨nmTetris, wUrl, 0⟩

/-- Five distinct game fixtures with non-empty URLs. -/
def c1Games : List Game :=
  [⟨nmTetris, wUrl, 0⟩, ⟨nmWrap, wUrl, 0⟩, ⟨nmReadme, wUrl, 0⟩,
    ⟨nmZipSav, wUrl, 0⟩, ⟨nmUpperZip, wUrl, 0⟩]

/-- A directory holding one archive-named file wrapping one ROM file. -/
def wArchiveEntries : List FsEntry :=
  [FsEntry.file nmZipSav [FsEntry.file nmTetrisGba []]]

/-- Scrape environment in which every remote step raises and only the
cache fallback works. -/
def wScrapeEnv : ScrapeEnv :=
  ⟨false, .error (), .error (), .error (), true, some nmTetris, true⟩

/-- Environment of a download that fails mid-stream after one chunk. -/
def cexErrEnv : DlEnv := ⟨true, 100, [40, 40], some 1, none⟩

/-- Environment of a download cancelled after one chunk. -/
def wCancelEnv : DlEnv := ⟨true, 100, [40, 40], none, some 1⟩

/-- Environment of a clean two-chunk download. -/
def wCleanEnv : DlEnv := ⟨true, 100, [30, 50], none, none⟩

/-! ## C5 — extractor dispatch is case-sensitive -/

/-- A suffix determines the last element. -/
theorem endsWithL_getLast (ext s : List Char) (hne : ext ≠ [])
    (h : endsWithL ext s = true) : s.getLast? = ext.getLast? := by
  have hsuf : ext <:+ s := by
    rw [endsWithL] at h
    exact List.isSuffixOf_iff_suffix.mp (by exact_mod_cast h)
  obtain ⟨t, ht⟩ := hsuf
  rw [← ht]
  exact List.getLast?_append_of_ne_nil _ hne

/-- Two candidate suffixes with different last elements cannot both hold. -/
theorem endsWithL_excl (e1 e2 s : List Char) (hne1 : e1 ≠ []) (hne2 : e2 ≠ [])
    (hdiff : e1.getLast? ≠ e2.getLast?) (h1 : endsWithL e1 s = true) :
    endsWithL e2 s = false := by
  by_contra hc
  have h2 : endsWithL e2 s = true := by
    cases he : endsWithL e2 s
    · exact absurd he hc
    · rfl
  exact hdiff ((endsWithL_getLast e1 s hne1 h1).symm.trans
    (endsWithL_getLast e2 s hne2 h2))

/-- C5 (counterexample): the claim says every path ending in a zip
extension *in any letter case* dispatches to the zip routine; but for the
existing path "game.ZIP" the dispatch raises the unsupported-format error
instead of invoking the zip routine. -/
theorem C5_counterexample :
    extractorDispatch true nmUpperZip = ExtractDispatch.unsupported
    ∧ extractorDispatch true nmUpperZip ≠ ExtractDispatch.zipRoutine := by
  refine ⟨by decide, by decide⟩

/-- C5 (amended): dispatch is by case-sensitive `endswith`: exactly the
paths ending in lower-case ".zip" / ".7z" / ".rar" invoke the
corresponding routine; a missing file fails with the not-found error; and
every other path — including upper-case variants such as ".ZIP" — fails
with the unsupported-format error. -/
theorem C5_dispatch_case_sensitive (fileExists : Bool) (f : List Char) :
    (extractorDispatch fileExists f = ExtractDispatch.notFound ↔ fileExists = false)
    ∧ (extractorDispatch fileExists f = ExtractDispatch.zipRoutine ↔
        fileExists = true ∧ endsWithL zipExt f = true)
    ∧ (extractorDispatch fileExists f = ExtractDispatch.sevenZRoutine ↔
        fileExists = true ∧ endsWithL sevenZExt f = true)
    ∧ (extractorDispatch fileExists f = ExtractDispatch.rarRoutine ↔
        fileExists = true ∧ endsWithL rarExt f = true)
    ∧ (extractorDispatch fileExists f = ExtractDispatch.unsupported ↔
        fileExists = true ∧ endsWithL zipExt f = false
          ∧ endsWithL sevenZExt f = false ∧ endsWithL rarExt f = false) := by
  cases fileExists with
  | false => simp [extractorDispatch]
  | true =>
    by_cases hz : endsWithL zipExt f = true
    · have h7 : endsWithL sevenZExt f = false :=
        endsWithL_excl zipExt sevenZExt f (by decide) (by decide) (by decide) hz
      have hr : endsWithL rarExt f = false :=
        endsWithL_excl zipExt rarExt f (by decide) (by decide) (by decide) hz
      simp [extractorDispatch, hz, h7, hr]
    · have hz' : endsWithL zipExt f = false := by
        cases he : endsWithL zipExt f
        · rfl
        · exact absurd he hz
      by_cases h7 : endsWithL sevenZExt f = true
      · have hr : endsWithL rarExt f = false :=
          endsWithL_excl sevenZExt rarExt f (by decide) (by decide) (by decide) h7
        simp [extractorDispatch, hz', h7, hr]
      · have h7' : endsWithL sevenZExt f = false := by
          cases he : endsWithL sevenZExt f
          · rfl
          · exact absurd he h7
        by_cases hr : endsWithL rarExt f = true
        · simp [extractorDispatch, hz', h7', hr]
        · have hr' : endsWithL rarExt f = false := by
            cases he : endsWithL rarExt f
            · rfl
            · exact absurd he hr
          simp [extractorDispatch, hz', h7', hr']

/-- C5 witness: the amended dispatch characterisation instantiated at the
existing file "game.zip.sav" (not an archive path: dispatch is
unsupported) — hypotheses discharged concretely. -/
theorem C5_witness :
    extractorDispatch true nmZipSav = ExtractDispatch.unsupported ↔
      true = true ∧ endsWithL zipExt nmZipSav = false
        ∧ endsWithL sevenZExt nmZipSav = false ∧ endsWithL rarExt nmZipSav = false :=
  (C5_dispatch_case_sensitive true nmZipSav).2.2.2.2

/-! ## C10 — archive classification is a substring test -/

/-- C10: a directory entry is classified as an archive exactly by the
lower-cased substring test: "game.zip.sav" (final extension ".sav") is
classified as an archive and `scan_folder` takes the extraction path on
it; "GAME.ZIP" is classified via lower-casing; "game_zip.sav" is not
classified and takes no extraction. -/
theorem C10_substring_classification :
    isArchiveName nmZipSav = true
    ∧ (endsWithL zipExt nmZipSav || endsWithL rarExt nmZipSav
        || endsWithL sevenZExt nmZipSav) = false
    ∧ isArchiveName nmAllCapsZip = true
    ∧ isArchiveName nmUnderscoreZip = false
    ∧ scanFolder 2 true [FsEntry.file nmZipSav [FsEntry.file nmTetrisGba []]] =
        .ok ⟨[FsEntry.file nmTetrisGba []], [nmTetrisGba], [nmZipSav]⟩
    ∧ scanFolder 2 true [FsEntry.file nmUnderscoreZip []] =
        .ok ⟨[FsEntry.file nmUnderscoreZip []], [nmUnderscoreZip], []⟩ := by
  exact ⟨by decide, by decide, by decide, by decide, rfl, rfl⟩

/-! ## C4 — duplicate submission is rejected without mutation -/

/-- C4: when the game's name is already a key of `active_downloads`,
`_show_download_confirmation` only shows an alert: the tracked set, every
tracked job, and the confirmation state are untouched. -/
theorem C4_duplicate_rejected_no_mutation (sz : Nat) (st : AppSt) (g : Game)
    (h : st.active_downloads.any (fun p => p.1 == g.name) = true) :
    showDownloadConfirmation sz st g = { st with alerts := st.alerts + 1 } := by
  simp [showDownloadConfirmation, h]

/-- C4 witness: re-submitting "Tetris" while it is tracked changes
nothing but the alert counter. -/
theorem C4_witness :
    showDownloadConfirmation 7 wTrackedSt wGameTetris =
      { wTrackedSt with alerts := wTrackedSt.alerts + 1 } :=
  C4_duplicate_rejected_no_mutation 7 wTrackedSt wGameTetris (by decide)

/-! ## C1 — no concurrency cap, no queue -/

/-- Membership in a Python-dict insertion. -/
theorem mem_dictInsert (l : List (List Char × JobInfo)) (k : List Char)
    (v : JobInfo) (p : List Char × JobInfo) (h : p ∈ dictInsert l k v) :
    p = (k, v) ∨ p ∈ l := by
  induction l with
  | nil =>
    simp [dictInsert] at h
    simp [h]
  | cons hd tl ih =>
    obtain ⟨k', v'⟩ := hd
    by_cases hk : (k' == k) = true
    · simp [dictInsert, hk] at h
      rcases h with h | h
      · exact Or.inl (by simp [h])
      · exact Or.inr (List.mem_cons_of_mem _ h)
    · simp [dictInsert, hk] at h
      rcases h with h | h
      · exact Or.inr (by simp [h])
      · rcases ih h with h' | h'
        · exact Or.inl h'
        · exact Or.inr (List.mem_cons_of_mem _ h')

/-- Every job tracked after a submission sequence is `downloading`,
provided every job tracked before was. -/
theorem submitAll_all_downloading (gs : List Game) (st : AppSt)
    (hst : ∀ p ∈ st.active_downloads, p.2.status = DlStatus.downloading) :
    ∀ p ∈ (submitAll st gs).active_downloads, p.2.status = DlStatus.downloading := by
  induction gs generalizing st with
  | nil => simpa [submitAll] using hst
  | cons g gs ih =>
    have hstep : ∀ p ∈ (match startDownload st g with
        | .ok s => s
        | .error _ => st).active_downloads, p.2.status = DlStatus.downloading := by
      by_cases hu : g.game_url.isEmpty
      · simpa [startDownload, hu] using hst
      · simp only [startDownload, hu]
        intro p hp
        rcases mem_dictInsert _ _ _ _ hp with h | h
        · rw [h]
        · exact hst p h
    have hfold : submitAll st (g :: gs) =
        submitAll (match startDownload st g with
          | .ok s => s
          | .error _ => st) gs := rfl
    rw [hfold]
    exact ih _ hstep

/-- C1 (amended): `_start_download` enforces no concurrency cap and never
queues: after any sequence of submissions from the empty state, every
tracked job is in the `downloading` status and no job is ever `queued`
(`Config.MAX_CONCURRENT_DOWNLOADS` is defined but never consulted). -/
theorem C1_no_cap_no_queue (gs : List Game) :
    (∀ p ∈ (submitAll emptyAppSt gs).active_downloads,
        p.2.status = DlStatus.downloading)
    ∧ countQueued (submitAll emptyAppSt gs) = 0 := by
  have hall := submitAll_all_downloading gs emptyAppSt (by simp [emptyAppSt])
  refine ⟨hall, ?_⟩
  unfold countQueued
  rw [List.length_eq_zero, List.filter_eq_nil_iff]
  intro p hp
  simp [hall p hp]

/-- C1 (counterexample): submitting five jobs while `N = 4` leaves five
jobs simultaneously active (non-Queued, non-terminal) and zero jobs
`Queued` — not at most four active with exactly one `Queued` at
position 1 as the claim states. -/
theorem C1_counterexample :
    MAX_CONCURRENT_DOWNLOADS = 4
    ∧ c1Games.length = MAX_CONCURRENT_DOWNLOADS + 1
    ∧ countActive (submitAll emptyAppSt c1Games) = MAX_CONCURRENT_DOWNLOADS + 1
    ∧ countQueued (submitAll emptyAppSt c1Games) = 0 := by decide

/-! ## C6 — nested-folder descent keys on the first entry only -/

/-- C6 (counterexample): a scanned directory with *two* entries whose
first entry is a subdirectory: descent happens anyway, and `scan_folder`
inspects the subdirectory's contents, not the scanned directory. -/
theorem C6_counterexample :
    cexNestedDir.length = 2
    ∧ (nestedDescendStep cexNestedDir).1 = true
    ∧ (nestedDescendStep cexNestedDir).2 = [FsEntry.file nmInnerGba []]
    ∧ scanFolder 1 false cexNestedDir =
        .ok ⟨[FsEntry.file nmInnerGba []], [nmInnerGba], []⟩ := by
  exact ⟨rfl, rfl, rfl, rfl⟩

/-- C6 (amended): the descent happens iff the listing is non-empty and
its *first* entry is a directory — regardless of how many entries the
directory has; it descends into that first entry. -/
theorem C6_descend_iff_first_entry_dir (entries : List FsEntry) :
    ((nestedDescendStep entries).1 = true ↔
      ∃ nm es rest, entries = FsEntry.dir nm es :: rest)
    ∧ (∀ nm es rest, entries = FsEntry.dir nm es :: rest →
        (nestedDescendStep entries).2 = es)
    ∧ ((nestedDescendStep entries).1 = false →
        (nestedDescendStep entries).2 = entries) := by
  match entries with
  | [] =>
    refine ⟨⟨fun h => by simp [nestedDescendStep] at h, ?_⟩, ?_, fun _ => rfl⟩
    · rintro ⟨nm, es, rest, h⟩
      exact absurd h (by simp)
    · intro nm es rest h
      exact absurd h (by simp)
  | FsEntry.file nm p :: rest =>
    refine ⟨⟨fun h => by simp [nestedDescendStep] at h, ?_⟩, ?_, fun _ => rfl⟩
    · rintro ⟨nm', es', rest', h⟩
      simp at h
    · intro nm' es' rest' h
      simp at h
  | FsEntry.dir nm es :: rest =>
    refine ⟨⟨fun _ => ⟨nm, es, rest, rfl⟩, fun _ => rfl⟩, ?_, ?_⟩
    · intro nm' es' rest' h
      simp only [List.cons.injEq] at h
      obtain ⟨h1, _⟩ := h
      cases h1
      rfl
    · intro h
      exact absurd h (by simp [nestedDescendStep])

/-- C6 witness: the descent characterisation instantiated on the concrete
two-entry directory, inner hypothesis discharged concretely. -/
theorem C6_witness :
    (nestedDescendStep cexNestedDir).2 = [FsEntry.file nmInnerGba []] :=
  (C6_descend_iff_first_entry_dir cexNestedDir).2.1 nmWrap
    [FsEntry.file nmInnerGba []] [FsEntry.file nmReadme []] rfl


/-! ## C7 — extraction policy of `scan_folder` -/

/-- C7: when the scanned (post-descent) directory contains archive-named
entries: with `isExtractable` false, `scan_folder` returns that directory
together with the archive list unchanged and performs no extraction
(empty extraction log); with `isExtractable` true and the first archive a
file, it extracts exactly that archive (into the `tmp` folder holding its
payload) and recurses on it. -/
theorem C7_extraction_policy (fuel : Nat) (entries : List FsEntry)
    (a : FsEntry) (rest : List FsEntry)
    (h : (nestedDescendStep entries).2.filter (fun e => isArchiveName e.name) =
      a :: rest) :
    scanFolder (fuel + 1) false entries =
      .ok ⟨(nestedDescendStep entries).2, (a :: rest).map FsEntry.name, []⟩
    ∧ (∀ nm payload, a = FsEntry.file nm payload →
        scanFolder (fuel + 1) true entries =
          (match scanFolder fuel true payload with
           | .ok r => .ok ⟨r.dirEntries, r.names, nm :: r.extracted⟩
           | err => err)) := by
  constructor
  · simp only [scanFolder]
    rw [h]
    simp
  · intro nm payload ha
    subst ha
    simp only [scanFolder]
    rw [h]
    simp

/-- C7 witness: the policy instantiated on a concrete directory whose
only entry is the archive-named file "game.zip.sav". -/
theorem C7_witness :
    scanFolder 2 false wArchiveEntries =
      .ok ⟨wArchiveEntries, [nmZipSav], []⟩
    ∧ scanFolder 2 true wArchiveEntries =
      (match scanFolder 1 true [FsEntry.file nmTetrisGba []] with
       | .ok r => .ok ⟨r.dirEntries, r.names, nmZipSav :: r.extracted⟩
       | err => err) :=
  ⟨(C7_extraction_policy 1 wArchiveEntries
      (FsEntry.file nmZipSav [FsEntry.file nmTetrisGba []]) [] rfl).1,
   (C7_extraction_policy 1 wArchiveEntries
      (FsEntry.file nmZipSav [FsEntry.file nmTetrisGba []]) [] rfl).2
      nmZipSav [FsEntry.file nmTetrisGba []] rfl⟩

/-! ## C3 — scrape failures degrade to the cache fallback -/

/-- C3: `scrape_rom` propagates an error exactly when the target image
was absent, the whole remote attempt (hash lookup, name lookup, media
download, image write) failed, *and* the cache-fallback step itself fails
(`download_image` returned `None`, or the copy into place raised).  In
particular no exception of the hash lookup, the name lookup or the media
download ever reaches the caller while the cache fallback works. -/
theorem C3_error_only_from_cache_fallback (env : ScrapeEnv) :
    exceptFails (scrape_rom env) = true ↔
      env.targetExists = false ∧ exceptFails (scrapeAttempt env) = true
        ∧ (env.cacheResult = none ∨ env.copyOk = false) := by
  cases hte : env.targetExists
  · cases hat : scrapeAttempt env with
    | ok m => simp [scrape_rom, hte, hat, exceptFails]
    | error e =>
      cases hcr : env.cacheResult with
      | none => simp [scrape_rom, hte, hat, hcr, exceptFails]
      | some pth =>
        cases hco : env.copyOk <;>
          simp [scrape_rom, hte, hat, hcr, hco, exceptFails]
  · simp [scrape_rom, hte, exceptFails]

/-- C3 witness: with all remote lookups raising and a working cache, the
call does not fail and returns the cache outcome. -/
theorem C3_witness :
    (exceptFails (scrape_rom wScrapeEnv) = true ↔
      wScrapeEnv.targetExists = false
        ∧ exceptFails (scrapeAttempt wScrapeEnv) = true
        ∧ (wScrapeEnv.cacheResult = none ∨ wScrapeEnv.copyOk = false))
    ∧ scrape_rom wScrapeEnv = .ok msgFromCache :=
  ⟨C3_error_only_from_cache_fallback wScrapeEnv, rfl⟩

/-! ## C9 — idempotence of the trailing-extension strip -/

/-- Running the automaton over an appended list. -/
theorem regexRun_append (st : RegexSt) (a b : List Char) :
    regexRun st (a ++ b) = regexRun (regexRun st a) b := by
  simp [regexRun, List.foldl_append]

/-- The dead state is absorbing. -/
theorem regexRun_dead (b : List Char) : regexRun .dead b = .dead := by
  induction b with
  | nil => rfl
  | cons c b ih => simpa [regexRun, List.foldl_cons, regexStep] using ih

/-- No transition re-enters the initial state. -/
theorem regexStep_ne_begun (st : RegexSt) (c : Char) : regexStep st c ≠ .begun := by
  cases st with
  | begun => by_cases h : c = '.' <;> simp [regexStep, h]
  | afterDot => by_cases h : isAsciiAlnum c = true <;> simp [regexStep, h]
  | inRun =>
    simp only [regexStep]
    split
    · simp
    · split
      · simp
      · simp
  | dead => simp [regexStep]

/-- A run over a non-empty list leaves the initial state. -/
theorem regexRun_ne_begun (st : RegexSt) (t : List Char) (h : st ≠ .begun) :
    regexRun st t ≠ .begun := by
  induction t generalizing st with
  | nil => simpa [regexRun]
  | cons c t ih => exact ih (regexStep st c) (regexStep_ne_begun st c)

/-- A matching list starts with a dot. -/
theorem isExtSuffix_head (b : List Char) (h : isExtSuffix b = true) :
    ∃ t, b = '.' :: t := by
  cases b with
  | nil => simp [isExtSuffix, regexRun] at h
  | cons c t =>
    refine ⟨t, ?_⟩
    by_cases hc : c = '.'
    · rw [hc]
    · exfalso
      have h1 : regexStep .begun c = .dead := by simp [regexStep, hc]
      have h2 : regexRun .begun (c :: t) = .dead := by
        show regexRun (regexStep .begun c) t = .dead
        rw [h1]
        exact regexRun_dead t
      rw [isExtSuffix, h2] at h
      simp at h

/-- Appending a matching tail does not change matching of a non-empty
list: the combined list matches exactly when the original does. -/
theorem extSuffix_absorb (a rest : List Char) (ha : a ≠ [])
    (hrest : isExtSuffix rest = true) :
    isExtSuffix (a ++ rest) = isExtSuffix a := by
  obtain ⟨t, ht⟩ := isExtSuffix_head rest hrest
  cases hrun : regexRun .begun a with
  | begun =>
    exfalso
    obtain ⟨c, cs, rfl⟩ : ∃ c cs, a = c :: cs := by
      cases a with
      | nil => exact absurd rfl ha
      | cons c cs => exact ⟨c, cs, rfl⟩
    exact regexRun_ne_begun (regexStep .begun c) cs (regexStep_ne_begun .begun c) hrun
  | afterDot =>
    have hstep : regexStep .afterDot '.' = .dead := by decide
    have h2 : regexRun .begun (a ++ rest) = .dead := by
      rw [regexRun_append, hrun, ht]
      show regexRun (regexStep .afterDot '.') t = .dead
      rw [hstep]
      exact regexRun_dead t
    simp [isExtSuffix, h2, hrun]
  | inRun =>
    have h2 : regexRun .begun (a ++ rest) = regexRun .begun rest := by
      rw [regexRun_append, hrun, ht]
      show regexRun (regexStep .inRun '.') t = regexRun (regexStep .begun '.') t
      have ha' : regexStep .inRun '.' = .afterDot := by decide
      have hb' : regexStep .begun '.' = .afterDot := by decide
      rw [ha', hb']
    have h3 : isExtSuffix (a ++ rest) = true := by
      have heq : isExtSuffix (a ++ rest) = isExtSuffix rest := by
        simp [isExtSuffix, h2]
      rw [heq, hrest]
    have h4 : isExtSuffix a = true := by simp [isExtSuffix, hrun]
    rw [h3, h4]
  | dead =>
    have h2 : regexRun .begun (a ++ rest) = .dead := by
      rw [regexRun_append, hrun]
      exact regexRun_dead rest
    simp [isExtSuffix, h2, hrun]

/-- Trimming a fully matching list removes everything. -/
theorem trimFileName_of_extSuffix (rest : List Char)
    (h : isExtSuffix rest = true) : trimFileName rest = [] := by
  obtain ⟨t, ht⟩ := isExtSuffix_head rest h
  subst ht
  simp [trimFileName, h]

/-- Appending a matching tail does not change the trimmed value. -/
theorem trimFileName_append_absorb (rest : List Char)
    (h : isExtSuffix rest = true) (s : List Char) :
    trimFileName (s ++ rest) = trimFileName s := by
  induction s with
  | nil => simpa [trimFileName] using trimFileName_of_extSuffix rest h
  | cons c cs ih =>
    have habs : isExtSuffix (c :: (cs ++ rest)) = isExtSuffix (c :: cs) := by
      simpa using extSuffix_absorb (c :: cs) rest (by simp) h
    by_cases hcs : isExtSuffix (c :: cs) = true
    · simp [trimFileName, List.cons_append, habs, hcs]
    · have hcs' : isExtSuffix (c :: cs) = false := by
        cases he : isExtSuffix (c :: cs)
        · rfl
        · exact absurd he hcs
      simp [trimFileName, List.cons_append, habs, hcs', ih]

/-- Every list splits as its trimmed prefix plus a matching removed tail
(or is left unchanged). -/
theorem trimFileName_split (s : List Char) :
    trimFileName s = s
    ∨ ∃ rest, s = trimFileName s ++ rest ∧ isExtSuffix rest = true := by
  induction s with
  | nil => exact Or.inl rfl
  | cons c cs ih =>
    by_cases h : isExtSuffix (c :: cs) = true
    · exact Or.inr ⟨c :: cs, by simp [trimFileName, h], h⟩
    · have h' : isExtSuffix (c :: cs) = false := by
        cases he : isExtSuffix (c :: cs)
        · rfl
        · exact absurd he h
      rcases ih with h1 | ⟨rest, hr1, hr2⟩
      · exact Or.inl (by simp [trimFileName, h', h1])
      · refine Or.inr ⟨rest, ?_, hr2⟩
        simp only [trimFileName, h', if_neg, Bool.false_eq_true, not_false_iff,
          List.cons_append]
        exact congrArg (c :: ·) hr1

/-- C9: the trailing-extension strip of `_trim_file_name` is idempotent:
trimming an already-trimmed name changes nothing. -/
theorem C9_trim_idempotent (s : List Char) :
    trimFileName (trimFileName s) = trimFileName s := by
  rcases trimFileName_split s with h | ⟨rest, h1, h2⟩
  · rw [h]
    exact h
  · have habs := trimFileName_append_absorb rest h2 (trimFileName s)
    rw [← h1] at habs
    exact habs.symm


/-! ## Worker-loop lemmas shared by C2 and C8 -/

/-- With no stream failure the loop never exits through the handler. -/
theorem dlLoop_no_raise (total : Nat) (cancelAt : Option Nat) (chunks : List Nat) :
    ∀ i bytes, (dlLoop total none cancelAt chunks i bytes).exit ≠ LoopExit.raised := by
  induction chunks with
  | nil => intro i bytes; simp [dlLoop]
  | cons c cs ih =>
    intro i bytes
    by_cases hcanc : cancelSeen cancelAt i = true
    · simp [dlLoop, hcanc]
    · have hcanc' : cancelSeen cancelAt i = false := by
        cases h : cancelSeen cancelAt i
        · rfl
        · exact absurd h hcanc
      by_cases hc : 0 < c
      · simpa [dlLoop, hcanc', hc] using ih (i + 1) (bytes + c)
      · simpa [dlLoop, hcanc', hc] using ih (i + 1) bytes

/-- A stream failure at chunk `j` exits through the handler with exactly
the first `j` chunks written. -/
theorem dlLoop_raises (total : Nat) (chunks : List Nat) :
    ∀ i bytes j, j < chunks.length →
      (dlLoop total (some (i + j)) none chunks i bytes).exit = LoopExit.raised
      ∧ (dlLoop total (some (i + j)) none chunks i bytes).bytes =
          bytes + (chunks.take j).sum := by
  induction chunks with
  | nil => intro i bytes j h; simp at h
  | cons c cs ih =>
    intro i bytes j h
    cases j with
    | zero => simp [dlLoop]
    | succ j' =>
      have hidx : i + (j' + 1) = (i + 1) + j' := by omega
      rw [hidx]
      have hne : ¬ ((some ((i + 1) + j') : Option Nat) = some i) := by
        simp
        omega
      have hrec := ih (i + 1) (bytes + c) j' (by simpa using h)
      have hrec0 := ih (i + 1) bytes j' (by simpa using h)
      by_cases hc : 0 < c
      · refine ⟨by simp [dlLoop, hne, cancelSeen, hc, hrec.1], ?_⟩
        have := hrec.2
        simp [dlLoop, hne, cancelSeen, hc, this]
        omega
      · refine ⟨by simp [dlLoop, hne, cancelSeen, hc, hrec0.1], ?_⟩
        have hc0 : c = 0 := by omega
        have := hrec0.2
        simp [dlLoop, hne, cancelSeen, hc, this, hc0]

/-- Progress percentages are non-negative. -/
theorem progressOf_nonneg (total b : Nat) : 0 ≤ progressOf total b := by
  unfold progressOf
  split
  · positivity
  · exact le_refl 0

/-- Progress of zero bytes is zero. -/
theorem progressOf_zero (total : Nat) : progressOf total 0 = 0 := by
  unfold progressOf
  split <;> simp

/-- Progress percentages grow with the byte count. -/
theorem progressOf_mono (total b1 b2 : Nat) (h : b1 ≤ b2) :
    progressOf total b1 ≤ progressOf total b2 := by
  unfold progressOf
  split
  · have hb : (b1 : ℚ) ≤ (b2 : ℚ) := by exact_mod_cast h
    have ht : (0 : ℚ) < (total : ℚ) := by
      rename_i htot
      exact_mod_cast htot
    gcongr
  · exact le_refl 0

/-- Progress percentages stay at or below 100 while the byte count is
within the advertised total. -/
theorem progressOf_le_100 (total b : Nat) (h : b ≤ total) :
    progressOf total b ≤ 100 := by
  unfold progressOf
  split
  · rename_i htot
    have ht : (0 : ℚ) < (total : ℚ) := by exact_mod_cast htot
    have hdiv : (b : ℚ) / (total : ℚ) ≤ 1 := by
      rw [div_le_one ht]
      exact_mod_cast h
    calc (b : ℚ) / (total : ℚ) * 100 ≤ 1 * 100 := by gcongr
    _ = 100 := by norm_num
  · norm_num

/-- Every progress value the loop writes is at least the progress of the
bytes already written when it started. -/
theorem dlLoop_writes_ge (total : Nat) (failAt cancelAt : Option Nat)
    (chunks : List Nat) :
    ∀ i bytes q, q ∈ (dlLoop total failAt cancelAt chunks i bytes).writes →
      progressOf total bytes ≤ q := by
  induction chunks with
  | nil => intro i bytes q hq; simp [dlLoop] at hq
  | cons c cs ih =>
    intro i bytes q hq
    by_cases hfail : failAt = some i
    · simp [dlLoop, hfail] at hq
    · by_cases hcanc : cancelSeen cancelAt i = true
      · simp [dlLoop, hfail, hcanc] at hq
      · have hcanc' : cancelSeen cancelAt i = false := by
          cases h : cancelSeen cancelAt i
          · rfl
          · exact absurd h hcanc
        by_cases hc : 0 < c
        · simp only [dlLoop, if_neg hfail, hcanc', Bool.false_eq_true,
            if_false, if_pos hc, List.mem_cons] at hq
          rcases hq with hq | hq
          · rw [hq]
            exact progressOf_mono total bytes (bytes + c) (by omega)
          · exact le_trans (progressOf_mono total bytes (bytes + c) (by omega))
              (ih (i + 1) (bytes + c) q hq)
        · simp only [dlLoop, if_neg hfail, hcanc', Bool.false_eq_true,
            if_false, if_neg hc] at hq
          exact ih (i + 1) bytes q hq

/-- The loop's progress writes are non-decreasing, starting from the
progress of the initial byte count. -/
theorem dlLoop_writes_chain (total : Nat) (failAt cancelAt : Option Nat)
    (chunks : List Nat) :
    ∀ i bytes, List.Chain' (· ≤ ·)
      (progressOf total bytes :: (dlLoop total failAt cancelAt chunks i bytes).writes) := by
  induction chunks with
  | nil => intro i bytes; simp [dlLoop]
  | cons c cs ih =>
    intro i bytes
    by_cases hfail : failAt = some i
    · simp [dlLoop, hfail]
    · by_cases hcanc : cancelSeen cancelAt i = true
      · simp [dlLoop, hfail, hcanc]
      · have hcanc' : cancelSeen cancelAt i = false := by
          cases h : cancelSeen cancelAt i
          · rfl
          · exact absurd h hcanc
        by_cases hc : 0 < c
        · simp only [dlLoop, if_neg hfail, hcanc', Bool.false_eq_true,
            if_false, if_pos hc]
          exact List.chain'_cons.mpr
            ⟨progressOf_mono total bytes (bytes + c) (by omega), ih (i + 1) (bytes + c)⟩
        · simp only [dlLoop, if_neg hfail, hcanc', Bool.false_eq_true,
            if_false, if_neg hc]
          exact ih (i + 1) bytes

/-- While the bytes served stay within the advertised total, every
progress value the loop writes is at most 100. -/
theorem dlLoop_writes_le (total : Nat) (failAt cancelAt : Option Nat)
    (chunks : List Nat) :
    ∀ i bytes, bytes + chunks.sum ≤ total →
      ∀ q ∈ (dlLoop total failAt cancelAt chunks i bytes).writes, q ≤ 100 := by
  induction chunks with
  | nil => intro i bytes _ q hq; simp [dlLoop] at hq
  | cons c cs ih =>
    intro i bytes hsum q hq
    by_cases hfail : failAt = some i
    · simp [dlLoop, hfail] at hq
    · by_cases hcanc : cancelSeen cancelAt i = true
      · simp [dlLoop, hfail, hcanc] at hq
      · have hcanc' : cancelSeen cancelAt i = false := by
          cases h : cancelSeen cancelAt i
          · rfl
          · exact absurd h hcanc
        have hsum' : bytes + c + cs.sum ≤ total := by
          simp [List.sum_cons] at hsum
          omega
        by_cases hc : 0 < c
        · simp only [dlLoop, if_neg hfail, hcanc', Bool.false_eq_true,
            if_false, if_pos hc, List.mem_cons] at hq
          rcases hq with hq | hq
          · rw [hq]
            exact progressOf_le_100 total (bytes + c) (by omega)
          · exact ih (i + 1) (bytes + c) hsum' q hq
        · simp only [dlLoop, if_neg hfail, hcanc', Bool.false_eq_true,
            if_false, if_neg hc] at hq
          exact ih (i + 1) bytes (by omega) q hq

/-! ## C2 — cleanup on the Cancelled path only -/

/-- C2 (counterexample): a download that errors mid-stream reaches the
terminal error branch with the partially written temp file still on disk
— the claim that every partial artifact is removed on the Error outcome
is false. -/
theorem C2_counterexample :
    (runWorker cexErrEnv).outcome = DlOutcome.errored
    ∧ (runWorker cexErrEnv).tempBytes = some 40
    ∧ (runWorker cexErrEnv).tempBytes ≠ none
    ∧ (runWorker cexErrEnv).progress = -1 := by
  refine ⟨rfl, rfl, ?_, rfl⟩
  rw [show (runWorker cexErrEnv).tempBytes = some 40 from rfl]
  simp

/-- C2 (amended): cleanup happens only on the Cancelled path — after a
cancelled run, `cancel()` removes the partial temp file, and nothing was
renamed into the holding folder; on the Error outcome no cleanup runs:
the worker ends in the handler with the partial temp file (holding the
bytes of the chunks written before the failure) still present. -/
theorem C2_cleanup_cancel_only (e : DlEnv) (hok : e.httpOk = true) :
    (∀ c, e.cancelAt = some c → e.failAt = none → c ≤ e.chunks.length →
      (runWorker e).outcome = DlOutcome.cancelled
      ∧ (cancelRun e).tempBytes = none
      ∧ (cancelRun e).holdingBytes = none)
    ∧ (∀ k, e.failAt = some k → e.cancelAt = none → k < e.chunks.length →
      (runWorker e).outcome = DlOutcome.errored
      ∧ (runWorker e).tempBytes = some (e.chunks.take k).sum
      ∧ (runWorker e).progress = -1) := by
  constructor
  · intro c hca hfa hcl
    have hexit : (dlLoop e.contentLength e.failAt e.cancelAt e.chunks 0 0).exit ≠
        LoopExit.raised := by
      rw [hfa]
      exact dlLoop_no_raise e.contentLength e.cancelAt e.chunks 0 0
    have hend : cancelSeenAtEnd e = true := by
      simp [cancelSeenAtEnd, hca, hcl]
    cases hre : (dlLoop e.contentLength e.failAt e.cancelAt e.chunks 0 0).exit with
    | raised => exact absurd hre hexit
    | broke =>
      refine ⟨?_, ?_, ?_⟩ <;> simp [runWorker, cancelRun, hok, hre]
    | finished =>
      refine ⟨?_, ?_, ?_⟩ <;> simp [runWorker, cancelRun, hok, hre, hend]
  · intro k hfk hca hkl
    have hr := dlLoop_raises e.contentLength e.chunks 0 0 k hkl
    rw [Nat.zero_add] at hr
    rw [← hfk, ← hca] at hr
    refine ⟨?_, ?_, ?_⟩ <;> simp [runWorker, hok, hr.1, hr.2]

/-- C2 witness: the amended cleanup statement instantiated on a concrete
cancelled run and a concrete errored run. -/
theorem C2_witness :
    ((runWorker wCancelEnv).outcome = DlOutcome.cancelled
      ∧ (cancelRun wCancelEnv).tempBytes = none
      ∧ (cancelRun wCancelEnv).holdingBytes = none)
    ∧ ((runWorker cexErrEnv).outcome = DlOutcome.errored
      ∧ (runWorker cexErrEnv).tempBytes = some (cexErrEnv.chunks.take 1).sum
      ∧ (runWorker cexErrEnv).progress = -1) :=
  ⟨(C2_cleanup_cancel_only wCancelEnv rfl).1 1 rfl rfl (by decide),
   (C2_cleanup_cancel_only cexErrEnv rfl).2 1 rfl rfl (by decide)⟩

/-! ## C8 — progress range, reset, monotonicity, error sentinel -/

/-- Membership in `getLast?`. -/
theorem mem_of_getLast?_eq (l : List ℚ) (x : ℚ) (h : l.getLast? = some x) :
    x ∈ l := by
  induction l with
  | nil => simp at h
  | cons a l ih =>
    cases l with
    | nil =>
      simp [List.getLast?] at h
      simp [h]
    | cons b l' =>
      rw [List.getLast?_cons_cons] at h
      exact List.mem_cons_of_mem a (ih h)

/-- C8 (amended): the worker resets progress to 0 at start; on a run
whose stream does not fail and whose bytes stay within the advertised
total, every successive value of `download_progress` is within 0–100 and
the sequence (starting from the reset 0) is non-decreasing — including
the final 100 of the completion branch; on the Error outcome, however,
the handler sets `download_progress = -1`, a sentinel outside 0–100. -/
theorem C8_progress_contract (e : DlEnv) (hok : e.httpOk = true)
    (hfa : e.failAt = none) (hsum : e.chunks.sum ≤ e.contentLength) :
    startProgress = 0
    ∧ List.Chain' (· ≤ ·) (startProgress :: (runWorker e).trace)
    ∧ (∀ q ∈ (runWorker e).trace, 0 ≤ q ∧ q ≤ 100)
    ∧ (∀ e2 : DlEnv, (runWorker e2).outcome = DlOutcome.errored →
        (runWorker e2).progress = -1) := by
  have hexit : (dlLoop e.contentLength e.failAt e.cancelAt e.chunks 0 0).exit ≠
      LoopExit.raised := by
    rw [hfa]
    exact dlLoop_no_raise e.contentLength e.cancelAt e.chunks 0 0
  have hchain := dlLoop_writes_chain e.contentLength e.failAt e.cancelAt e.chunks 0 0
  rw [progressOf_zero] at hchain
  have hge := dlLoop_writes_ge e.contentLength e.failAt e.cancelAt e.chunks 0
  have hle := dlLoop_writes_le e.contentLength e.failAt e.cancelAt e.chunks 0 0
    (by simpa using hsum)
  have hbounds : ∀ q ∈ (dlLoop e.contentLength e.failAt e.cancelAt e.chunks 0 0).writes,
      0 ≤ q ∧ q ≤ 100 := by
    intro q hq
    refine ⟨?_, hle q hq⟩
    have := hge 0 q hq
    rwa [progressOf_zero] at this
  have herr : ∀ e2 : DlEnv, (runWorker e2).outcome = DlOutcome.errored →
      (runWorker e2).progress = -1 := by
    intro e2 hout
    by_cases hok2 : e2.httpOk = true
    · cases hre : (dlLoop e2.contentLength e2.failAt e2.cancelAt e2.chunks 0 0).exit with
      | raised => simp [runWorker, hok2, hre]
      | broke => simp [runWorker, hok2, hre] at hout
      | finished =>
        cases hend : cancelSeenAtEnd e2 <;> simp [runWorker, hok2, hre, hend] at hout
    · have hok2' : e2.httpOk = false := by
        cases h : e2.httpOk
        · rfl
        · exact absurd h hok2
      simp [runWorker, hok2']
  refine ⟨rfl, ?_, ?_, herr⟩
  · cases hre : (dlLoop e.contentLength e.failAt e.cancelAt e.chunks 0 0).exit with
    | raised => exact absurd hre hexit
    | broke => simpa [runWorker, hok, hre, startProgress] using hchain
    | finished =>
      cases hend : cancelSeenAtEnd e
      · have hlast : ∀ x, ((0 : ℚ) :: (dlLoop e.contentLength e.failAt e.cancelAt
            e.chunks 0 0).writes).getLast? = some x → x ≤ 100 := by
          intro x hx
          have hmem := mem_of_getLast?_eq _ _ hx
          rcases List.mem_cons.mp hmem with hx0 | hxw
          · rw [hx0]
            norm_num
          · exact hle x hxw
        have happ : List.Chain' (· ≤ ·)
            (((0 : ℚ) :: (dlLoop e.contentLength e.failAt e.cancelAt
              e.chunks 0 0).writes) ++ [100]) := by
          apply List.Chain'.append hchain (by simp)
          intro x hx y hy
          simp at hy
          rw [← hy]
          exact hlast x (by simpa using hx)
        simpa [runWorker, hok, hre, hend, startProgress] using happ
      · simpa [runWorker, hok, hre, hend, startProgress] using hchain
  · cases hre : (dlLoop e.contentLength e.failAt e.cancelAt e.chunks 0 0).exit with
    | raised => exact absurd hre hexit
    | broke =>
      intro q hq
      simp only [runWorker, hok, hre] at hq
      exact hbounds q (by simpa [runWorker, hok, hre] using hq)
    | finished =>
      cases hend : cancelSeenAtEnd e
      · intro q hq
        simp [runWorker, hok, hre, hend] at hq
        rcases hq with hq | hq
        · exact hbounds q hq
        · rw [hq]
          norm_num
      · intro q hq
        exact hbounds q (by simpa [runWorker, hok, hre, hend] using hq)

/-- C8 (counterexample): on a mid-stream failure the error branch sets
`download_progress` to −1 — a value outside the claimed 0–100 range. -/
theorem C8_counterexample :
    (runWorker cexErrEnv).progress = -1
    ∧ (runWorker cexErrEnv).progress < 0
    ∧ ¬ (0 ≤ (runWorker cexErrEnv).progress ∧
          (runWorker cexErrEnv).progress ≤ 100) := by
  refine ⟨rfl, by norm_num [runWorker, cexErrEnv, dlLoop, cancelSeen], ?_⟩
  intro hcontra
  have h1 : (runWorker cexErrEnv).progress = -1 := rfl
  rw [h1] at hcontra
  norm_num at hcontra

/-- C8 witness: the progress contract instantiated on a concrete clean
run, hypotheses discharged concretely. -/
theorem C8_witness :
    startProgress = 0
    ∧ List.Chain' (· ≤ ·) (startProgress :: (runWorker wCleanEnv).trace)
    ∧ (∀ q ∈ (runWorker wCleanEnv).trace, 0 ≤ q ∧ q ≤ 100)
    ∧ (∀ e2 : DlEnv, (runWorker e2).outcome = DlOutcome.errored →
        (runWorker e2).progress = -1) :=
  C8_progress_contract wCleanEnv rfl rfl (by decide)

end EmuDrop
